import Mathlib

/-!
Verification of the YOLOv11 post-processing pipeline (src/src/yolo11.cpp).

The C++ source is shallowly embedded: `float` is modelled by `ℚ` (exact
arithmetic), `cv::Rect_<float>` by `RectQ`, the `Object` struct by `Obj`,
and the in-place algorithms by explicit state passing on `Array Obj`.
C++ `int` arithmetic is modelled by `ℤ` (Lean's `/` on `ℤ` agrees with C++
`/` on the non-negative operands that occur here), and float-to-int
conversion of the non-negative quantities that occur here by `Int.floor`
(C++ truncates toward zero, which coincides with `floor` on non-negative
values).
-/

/-- Model of `cv::Rect_<float>`: an axis-aligned rectangle given by its
top-left corner `(x, y)` and extents `(w, h)`. -/
structure RectQ where
  x : ℚ
  y : ℚ
  w : ℚ
  h : ℚ
deriving DecidableEq, Inhabited, Repr

/-- Model of the `Object` struct of yolo11.cpp: a candidate detection. -/
structure Obj where
  rect : RectQ
  label : ℕ
  prob : ℚ
deriving DecidableEq, Inhabited, Repr

/-- Model of `cv::Rect_<float>::area()`: `width * height`. -/
def rectArea (r : RectQ) : ℚ := r.w * r.h

/-- Model of OpenCV's `operator&` on `cv::Rect_<float>` (rectangle
intersection): the overlapping rectangle, or the all-zero empty rectangle
when the computed width or height is non-positive. -/
def rectInter (a b : RectQ) : RectQ :=
  let x1 := max a.x b.x
  let y1 := max a.y b.y
  let w := min (a.x + a.w) (b.x + b.w) - x1
  let h := min (a.y + a.h) (b.y + b.h) - y1
  if w ≤ 0 ∨ h ≤ 0 then ⟨0, 0, 0, 0⟩ else ⟨x1, y1, w, h⟩

/-- Model of `intersection_area` (yolo11.cpp line 20):
`(a.rect & b.rect).area()`. -/
def intersection_area (a b : Obj) : ℚ := rectArea (rectInter a.rect b.rect)

/-- Model of `clampf` (yolo11.cpp line 83): `max(min, std::min(max, d))`. -/
def clampf (d mn mx : ℚ) : ℚ := max mn (min mx d)

/-! ### Sorter: `qsort_descent_inplace` (yolo11.cpp lines 26-54)

The C++ is an in-place Hoare-partition quicksort on `prob`, descending.
The two inner scanning `while` loops and the partition `while` loop are
embedded as well-founded recursions; indices are `ℤ` (C++ `int`), with the
array accesses guarded (the C++ reads are in bounds on every execution
that the C++ standard defines, which the partition invariants guarantee
for the actual calls).  The outer recursion's termination depends on those
partition invariants, so it is embedded with an explicit recursion-depth
budget `fuel`; the entry point passes `a.size`, which is proved sufficient
(`qsortRec_fuel_irrelevant` below shows any sufficient budget gives the
same result). -/

/-- Model of the first inner loop `while (objects[i].prob > p) i++;`. -/
def scanUp (a : Array Obj) (p : ℚ) (i : ℤ) : ℤ :=
  if h : 0 ≤ i ∧ i < (a.size : ℤ) then
    if p < (a.get ⟨i.toNat, by omega⟩).prob then scanUp a p (i + 1) else i
  else i
termination_by ((a.size : ℤ) - i).toNat
decreasing_by omega

/-- Model of the second inner loop `while (objects[j].prob < p) j--;`. -/
def scanDown (a : Array Obj) (p : ℚ) (j : ℤ) : ℤ :=
  if h : 0 ≤ j ∧ j < (a.size : ℤ) then
    if (a.get ⟨j.toNat, by omega⟩).prob < p then scanDown a p (j - 1) else j
  else j
termination_by (j + 1).toNat
decreasing_by omega

/-- View of the element of `a` at an integer index (`default` out of
bounds); vocabulary for stating the quicksort invariants. -/
def objAt (a : Array Obj) (k : ℤ) : Obj := a.getD k.toNat default

/-- Probability stored at an integer index. -/
def probAt (a : Array Obj) (k : ℤ) : ℚ := (objAt a k).prob

/-- The segment `[lo, hi]` of `a` is sorted by non-increasing `prob`. -/
def SortedSeg (a : Array Obj) (lo hi : ℤ) : Prop :=
  ∀ k k' : ℤ, lo ≤ k → k ≤ k' → k' ≤ hi → probAt a k' ≤ probAt a k

/-- Swap of two positions of an array, identity when out of bounds (the
C++ `std::swap(objects[i], objects[j])` is only executed in bounds). -/
def swapA (a : Array Obj) (i j : ℕ) : Array Obj :=
  if h : i < a.size ∧ j < a.size then a.swap ⟨i, h.1⟩ ⟨j, h.2⟩ else a

/-- Model of the partition loop `while (i <= j) { ... }` of
`qsort_descent_inplace`: returns the mutated array together with the final
values of `i` and `j`. -/
def partLoop (a : Array Obj) (p : ℚ) (i j : ℤ) : Array Obj × ℤ × ℤ :=
  if hij : i ≤ j then
    let i1 := scanUp a p i
    let j1 := scanDown a p j
    if h1 : i1 ≤ j1 then
      partLoop (swapA a i1.toNat j1.toNat) p (i1 + 1) (j1 - 1)
    else (a, i1, j1)
  else (a, i, j)
termination_by (j - i + 1).toNat
decreasing_by
  have hup : ∀ (k : ℤ), k ≤ scanUp a p k := by
    intro k
    induction k using scanUp.induct a p with
    | case1 k h hlt ih => rw [scanUp]; simp only [dif_pos h, if_pos hlt]; omega
    | case2 k h hlt => rw [scanUp]; simp only [dif_pos h, if_neg hlt]; omega
    | case3 k h => rw [scanUp]; simp only [dif_neg h]; omega
  have hdn : ∀ (k : ℤ), scanDown a p k ≤ k := by
    intro k
    induction k using scanDown.induct a p with
    | case1 k h hlt ih => rw [scanDown]; simp only [dif_pos h, if_pos hlt]; omega
    | case2 k h hlt => rw [scanDown]; simp only [dif_pos h, if_neg hlt]; omega
    | case3 k h => rw [scanDown]; simp only [dif_neg h]; omega
  have h1 := hup i
  have h2 := hdn j
  simp only [i1, j1] at *
  omega

/-- Model of the recursive body of `qsort_descent_inplace(objects, left,
right)` (yolo11.cpp lines 26-48).  The pair of recursive calls is guarded
exactly as in the source (`left < j`, `i < right`); the pivot read
`objects[(left + right) / 2].prob` is expressed through the total view
`probAt` (equal to the C++ read whenever the index is in bounds, which the
surrounding guard ensures); `fuel` is an explicit recursion-depth budget
(see the section comment). -/
def qsortRec (fuel : ℕ) (a : Array Obj) (left right : ℤ) : Array Obj :=
  match fuel with
  | 0 => a
  | fuel + 1 =>
    if 0 ≤ left ∧ left ≤ right ∧ right < (a.size : ℤ) then
      let p := probAt a ((left + right) / 2)
      let r := partLoop a p left right
      let a2 := if left < r.2.2 then qsortRec fuel r.1 left r.2.2 else r.1
      if r.2.1 < right then qsortRec fuel a2 r.2.1 right else a2
    else a

/-- Model of the wrapper `qsort_descent_inplace(objects)` (yolo11.cpp
lines 50-54): sorts `[0, size-1]` when the array is non-empty. -/
def qsort_descent_inplace (a : Array Obj) : Array Obj :=
  if a.size ≠ 0 then qsortRec a.size a 0 ((a.size : ℤ) - 1) else a

/-! ### NMS Filter: `nms_sorted_bboxes` (yolo11.cpp lines 56-81) -/

/-- Model of one iteration of the inner loop of `nms_sorted_bboxes`
against a kept index `j`: `true` when the candidate `a` (at index `i`) is
suppressed by the kept object `b` (at index `j`), i.e. the `continue` was
not taken and `inter_area / union_area > nms_threshold`.  Division by zero
follows the `ℚ` convention `q / 0 = 0`; see the C8 theorems. -/
def pairSuppresses (a b : Obj) (areaA areaB : ℚ) (nms_threshold : ℚ)
    (agnostic : Bool) : Bool :=
  if !agnostic ∧ a.label ≠ b.label then false
  else
    let inter_area := intersection_area a b
    let union_area := areaA + areaB - inter_area
    decide (inter_area / union_area > nms_threshold)

/-- Model of the `keep` flag computed by `nms_sorted_bboxes` for a
candidate index `i` against the current `picked` list. -/
def nmsKeep (faceobjects : Array Obj) (areas : Array ℚ)
    (nms_threshold : ℚ) (agnostic : Bool) (i : ℕ) (picked : List ℕ) : Bool :=
  picked.all fun j =>
    !(pairSuppresses (faceobjects.getD i default) (faceobjects.getD j default)
        (areas.getD i 0) (areas.getD j 0) nms_threshold agnostic)

/-- Model of the outer loop of `nms_sorted_bboxes`: fold of the kept-index
list over candidate indices `0, 1, ..., n-1`. -/
def nmsFold (faceobjects : Array Obj) (areas : Array ℚ)
    (nms_threshold : ℚ) (agnostic : Bool) (n : ℕ) : List ℕ :=
  (List.range n).foldl
    (fun picked i =>
      if nmsKeep faceobjects areas nms_threshold agnostic i picked then
        picked ++ [i]
      else picked)
    []

/-- Model of `nms_sorted_bboxes` (yolo11.cpp lines 56-81): returns the
list of kept (picked) indices; `areas` is the precomputed per-candidate
area vector of the source. -/
def nms_sorted_bboxes (faceobjects : Array Obj) (nms_threshold : ℚ)
    (agnostic : Bool := false) : List ℕ :=
  nmsFold faceobjects (faceobjects.map fun o => rectArea o.rect)
    nms_threshold agnostic faceobjects.size

/-- The IoU of two candidates exactly as the source computes it:
`intersection_area / (area + area - intersection_area)`. -/
def iouQ (a b : Obj) : ℚ :=
  intersection_area a b /
    (rectArea a.rect + rectArea b.rect - intersection_area a b)

/-- Variant of `nms_sorted_bboxes` instrumented to also record every
`union_area` denominator evaluated at yolo11.cpp line 74 (the comparisons
that were not skipped by the `continue`); the kept-index component follows
the source exactly as in `nmsFold`. -/
def nmsFoldTrace (faceobjects : Array Obj) (areas : Array ℚ)
    (nms_threshold : ℚ) (agnostic : Bool) (n : ℕ) : List ℕ × List ℚ :=
  (List.range n).foldl
    (fun st i =>
      let a := faceobjects.getD i default
      let denoms := st.1.filterMap fun j =>
        let b := faceobjects.getD j default
        if !agnostic ∧ a.label ≠ b.label then none
        else some (areas.getD i 0 + areas.getD j 0 - intersection_area a b)
      let picked :=
        if nmsKeep faceobjects areas nms_threshold agnostic i st.1 then
          st.1 ++ [i]
        else st.1
      (picked, st.2 ++ denoms))
    ([], [])

/-- Instrumented entry point matching `nms_sorted_bboxes`. -/
def nms_sorted_bboxes_trace (faceobjects : Array Obj) (nms_threshold : ℚ)
    (agnostic : Bool := false) : List ℕ × List ℚ :=
  nmsFoldTrace faceobjects (faceobjects.map fun o => rectArea o.rect)
    nms_threshold agnostic faceobjects.size

/-! ### Decoder: `parse_yolov11_detections` (yolo11.cpp lines 88-117)

The raw tensor is a `num_channels × num_anchors` matrix that the source
transposes (`output.t()`) and then iterates anchor-major; the embedding
takes the anchor-major view directly: one `List ℚ` per anchor, laid out as
`[cx, cy, w, h, score_0, ..., score_(num_labels-1)]`.  `std::max_element`
returns the first maximal element of `[cls, cls + num_labels)`; this is
embedded as the fold `listMax` together with `List.indexOf` of the maximal
value (the index of its first occurrence). -/

/-- The class-score segment of an anchor row: `row + 4` up to
`num_labels` entries. -/
def clsOf (num_labels : ℕ) (row : List ℚ) : List ℚ :=
  (row.drop 4).take num_labels

/-- Maximum of a score list (`*std::max_element`); `0` for the empty
range, on which the C++ would be undefined. -/
def listMax : List ℚ → ℚ
  | [] => 0
  | c :: cs => cs.foldl max c

/-- Model of one iteration of the anchor loop of
`parse_yolov11_detections`: the candidate pushed for this row, if any. -/
def rowDecode (conf_thres : ℚ) (num_labels : ℕ) (img_w img_h : ℚ)
    (row : List ℚ) : Option Obj :=
  match clsOf num_labels row with
  | [] => none
  | c :: cs =>
    let score := listMax (c :: cs)
    if score > conf_thres then
      let x := row.getD 0 0
      let y := row.getD 1 0
      let w := row.getD 2 0
      let h := row.getD 3 0
      let x0 := clampf (x - (1/2) * w) 0 img_w
      let y0 := clampf (y - (1/2) * h) 0 img_h
      let x1 := clampf (x + (1/2) * w) 0 img_w
      let y1 := clampf (y + (1/2) * h) 0 img_h
      some ⟨⟨x0, y0, x1 - x0, y1 - y0⟩, (c :: cs).indexOf score, score⟩
    else none

/-- Model of `parse_yolov11_detections` (yolo11.cpp lines 88-117) on the
anchor-major rows. -/
def parse_yolov11_detections (rows : List (List ℚ)) (conf_thres : ℚ)
    (num_labels : ℕ) (img_w img_h : ℚ) : List Obj :=
  rows.filterMap (rowDecode conf_thres num_labels img_w img_h)

/-! ### Preprocessor geometry and `YoloV11::detect` (yolo11.cpp 150-214)

Only the letterbox geometry of `detect` is modelled (the pixel resize,
normalization and the ncnn forward pass are external collaborators); the
raw output tensor enters the model as the anchor-major `rows`. -/

/-- The scale `(w > h) ? target_size/w : target_size/h` computed by
`detect` (yolo11.cpp line 158), with `target_size = 480`. -/
def preprocScale (W H : ℕ) : ℚ :=
  if W > H then (480 : ℚ) / W else (480 : ℚ) / H

/-- The resized dimensions computed by `detect` (yolo11.cpp lines
159-164): `w = w * scale` and `h = h * scale` truncated to `int`, then the
larger side forced to `target_size`. -/
def preprocWH (W H : ℕ) : ℤ × ℤ :=
  let scale := preprocScale W H
  let w : ℤ := ⌊(W : ℚ) * scale⌋
  let h : ℤ := ⌊(H : ℚ) * scale⌋
  if w > h then (480, h) else (w, 480)

/-- The horizontal padding `wpad` of `detect` (yolo11.cpp line 167):
`(target_size + MAX_STRIDE - 1) / MAX_STRIDE * MAX_STRIDE - w`. -/
def padTotalW (W H : ℕ) : ℤ := (480 + 32 - 1) / 32 * 32 - (preprocWH W H).1

/-- The vertical padding `hpad` of `detect` (yolo11.cpp line 168). -/
def padTotalH (W H : ℕ) : ℤ := (480 + 32 - 1) / 32 * 32 - (preprocWH W H).2

/-- Model of the coordinate rewrite applied to one kept object by
`detect` (yolo11.cpp lines 197-206): un-letterbox each corner by
`(p - pad) / scale`, clamp into `[0, W-1] × [0, H-1]`, and rebuild the
rectangle from the clamped corners. -/
def mapObj (o : Obj) (padX padY : ℤ) (scale : ℚ) (W H : ℕ) : Obj :=
  let x0 := (o.rect.x - (padX : ℚ)) / scale
  let y0 := (o.rect.y - (padY : ℚ)) / scale
  let x1 := (o.rect.x + o.rect.w - (padX : ℚ)) / scale
  let y1 := (o.rect.y + o.rect.h - (padY : ℚ)) / scale
  let x0c := clampf x0 0 ((W : ℚ) - 1)
  let y0c := clampf y0 0 ((H : ℚ) - 1)
  let x1c := clampf x1 0 ((W : ℚ) - 1)
  let y1c := clampf y1 0 ((H : ℚ) - 1)
  { o with rect := ⟨x0c, y0c, x1c - x0c, y1c - y0c⟩ }

/-- Model of the post-inference part of `YoloV11::detect` (yolo11.cpp
lines 150-214): decode the raw rows against the padded input size, sort,
run NMS, rewrite the kept boxes into original-image coordinates, and
return them together with the function's `int` return value. -/
def detectPost (W H : ℕ) (num_labels : ℕ) (rows : List (List ℚ))
    (conf_thres nms_thres : ℚ) : List Obj × ℤ :=
  let scale := preprocScale W H
  let wh := preprocWH W H
  let wpad := padTotalW W H
  let hpad := padTotalH W H
  let padded_w : ℤ := wh.1 + wpad
  let padded_h : ℤ := wh.2 + hpad
  let proposals := parse_yolov11_detections rows conf_thres num_labels
    (padded_w : ℚ) (padded_h : ℚ)
  let sorted := qsort_descent_inplace proposals.toArray
  let picked := nms_sorted_bboxes sorted nms_thres
  let objects := picked.map fun i =>
    mapObj (sorted.getD i default) (wpad / 2) (hpad / 2) scale W H
  (objects, 0)


/-! ### Helper lemmas -/

theorem clampf_le_hi (d mn mx : ℚ) (h : mn ≤ mx) : clampf d mn mx ≤ mx := by
  simp only [clampf, max_le_iff]
  exact ⟨h, min_le_left _ _⟩

theorem clampf_ge_lo (d mn mx : ℚ) : mn ≤ clampf d mn mx :=
  le_max_left _ _

theorem clampf_mono (d d' mn mx : ℚ) (h : d ≤ d') :
    clampf d mn mx ≤ clampf d' mn mx := by
  have : min mx d ≤ min mx d' := min_le_min le_rfl h
  exact max_le_max le_rfl this

theorem clampf_of_ge (d mn mx : ℚ) (h1 : mn ≤ mx) (h2 : mx ≤ d) :
    clampf d mn mx = mx := by
  simp only [clampf]
  rw [min_eq_left h2, max_eq_right h1]

theorem objAt_of_lt (a : Array Obj) (k : ℤ) (h0 : 0 ≤ k)
    (h : k < (a.size : ℤ)) : objAt a k = a.get ⟨k.toNat, by omega⟩ := by
  simp only [objAt, Array.getD]
  rw [dif_pos (by omega : k.toNat < a.size)]

theorem size_swapA (a : Array Obj) (i j : ℕ) : (swapA a i j).size = a.size := by
  unfold swapA
  split
  · exact Array.size_swap ..
  · rfl

theorem objAt_swapA_of_ne (a : Array Obj) (i j : ℕ) (k : ℤ)
    (hki : k ≠ (i : ℤ)) (hkj : k ≠ (j : ℤ)) (hk0 : 0 ≤ k) :
    objAt (swapA a i j) k = objAt a k := by
  unfold swapA
  split
  case isTrue h =>
    simp only [objAt, Array.getD, Array.size_swap]
    split
    case isTrue hlt =>
      simp only [Array.get_eq_getElem, Array.getElem_swap]
      rw [if_neg ?hh1, if_neg ?hh2]
      case hh1 => omega
      case hh2 => omega
    case isFalse hlt => rfl
  case isFalse h => rfl

theorem objAt_swapA_left (a : Array Obj) (i j : ℕ) (hi : i < a.size)
    (hj : j < a.size) : objAt (swapA a i j) (i : ℤ) = objAt a (j : ℤ) := by
  unfold swapA
  rw [dif_pos ⟨hi, hj⟩]
  simp only [objAt, Array.getD, Array.size_swap]
  rw [dif_pos (by simpa using hi), dif_pos (by simpa using hj)]
  simp only [Array.get_eq_getElem]
  simp [Array.getElem_swap]

theorem objAt_swapA_right (a : Array Obj) (i j : ℕ) (hi : i < a.size)
    (hj : j < a.size) : objAt (swapA a i j) (j : ℤ) = objAt a (i : ℤ) := by
  unfold swapA
  rw [dif_pos ⟨hi, hj⟩]
  simp only [objAt, Array.getD, Array.size_swap]
  rw [dif_pos (by simpa using hj), dif_pos (by simpa using hi)]
  simp only [Array.get_eq_getElem]
  by_cases hij : j = i
  · subst hij; simp [Array.getElem_swap]
  · simp only [Array.getElem_swap]
    rw [if_neg ?hh1, if_pos ?hh2]
    case hh1 => omega
    case hh2 => omega
    simp

/-! ### Scan lemmas -/

theorem scanUp_ge (a : Array Obj) (p : ℚ) (i : ℤ) : i ≤ scanUp a p i := by
  induction i using scanUp.induct a p with
  | case1 k h hlt ih => rw [scanUp]; simp only [dif_pos h, if_pos hlt]; omega
  | case2 k h hlt => rw [scanUp]; simp only [dif_pos h, if_neg hlt]; omega
  | case3 k h => rw [scanUp]; simp only [dif_neg h]; omega

theorem scanDown_le (a : Array Obj) (p : ℚ) (j : ℤ) : scanDown a p j ≤ j := by
  induction j using scanDown.induct a p with
  | case1 k h hlt ih => rw [scanDown]; simp only [dif_pos h, if_pos hlt]; omega
  | case2 k h hlt => rw [scanDown]; simp only [dif_pos h, if_neg hlt]; omega
  | case3 k h => rw [scanDown]; simp only [dif_neg h]; omega

theorem scanUp_stop (a : Array Obj) (p : ℚ) (i : ℤ)
    (h0 : 0 ≤ scanUp a p i) (hs : scanUp a p i < (a.size : ℤ)) :
    probAt a (scanUp a p i) ≤ p := by
  induction i using scanUp.induct a p with
  | case1 k h hlt ih =>
    rw [scanUp] at h0 hs ⊢
    simp only [dif_pos h, if_pos hlt] at h0 hs ⊢
    exact ih h0 hs
  | case2 k h hlt =>
    rw [scanUp]
    simp only [dif_pos h, if_neg hlt]
    rw [probAt, objAt_of_lt a k h.1 h.2]
    exact not_lt.mp hlt
  | case3 k h =>
    rw [scanUp] at h0 hs
    simp only [dif_neg h] at h0 hs
    exact absurd ⟨h0, hs⟩ h

theorem scanUp_passed (a : Array Obj) (p : ℚ) (i : ℤ) (h0 : 0 ≤ i) :
    ∀ k, i ≤ k → k < scanUp a p i → p < probAt a k := by
  induction i using scanUp.induct a p with
  | case1 m h hlt ih =>
    intro k hk1 hk2
    rw [scanUp] at hk2
    simp only [dif_pos h, if_pos hlt] at hk2
    rcases eq_or_lt_of_le hk1 with rfl | hk1'
    · rw [probAt, objAt_of_lt a m h.1 h.2]; exact hlt
    · exact ih (by omega) k (by omega) hk2
  | case2 m h hlt =>
    intro k hk1 hk2
    rw [scanUp] at hk2
    simp only [dif_pos h, if_neg hlt] at hk2
    omega
  | case3 m h =>
    intro k hk1 hk2
    rw [scanUp] at hk2
    simp only [dif_neg h] at hk2
    omega

theorem scanDown_stop (a : Array Obj) (p : ℚ) (j : ℤ)
    (h0 : 0 ≤ scanDown a p j) (hs : scanDown a p j < (a.size : ℤ)) :
    p ≤ probAt a (scanDown a p j) := by
  induction j using scanDown.induct a p with
  | case1 k h hlt ih =>
    rw [scanDown] at h0 hs ⊢
    simp only [dif_pos h, if_pos hlt] at h0 hs ⊢
    exact ih h0 hs
  | case2 k h hlt =>
    rw [scanDown]
    simp only [dif_pos h, if_neg hlt]
    rw [probAt, objAt_of_lt a k h.1 h.2]
    exact not_lt.mp hlt
  | case3 k h =>
    rw [scanDown] at h0 hs
    simp only [dif_neg h] at h0 hs
    exact absurd ⟨h0, hs⟩ h

theorem scanDown_passed (a : Array Obj) (p : ℚ) (j : ℤ)
    (hs : j < (a.size : ℤ)) :
    ∀ k, scanDown a p j < k → k ≤ j → probAt a k < p := by
  induction j using scanDown.induct a p with
  | case1 m h hlt ih =>
    intro k hk1 hk2
    rw [scanDown] at hk1
    simp only [dif_pos h, if_pos hlt] at hk1
    rcases eq_or_lt_of_le hk2 with rfl | hk2'
    · rw [probAt, objAt_of_lt a k h.1 h.2]; exact hlt
    · exact ih (by omega) k hk1 (by omega)
  | case2 m h hlt =>
    intro k hk1 hk2
    rw [scanDown] at hk1
    simp only [dif_pos h, if_neg hlt] at hk1
    omega
  | case3 m h =>
    intro k hk1 hk2
    rw [scanDown] at hk1
    simp only [dif_neg h] at hk1
    omega

/-! ### Partition loop lemmas -/

theorem partLoop_size (a : Array Obj) (p : ℚ) (i j : ℤ) :
    (partLoop a p i j).1.size = a.size := by
  induction a, p, i, j using partLoop.induct with
  | case1 a p i j hij i1 j1 h1 ih =>
    rw [partLoop]
    simp only [dif_pos hij, dif_pos h1]
    rw [ih, size_swapA]
  | case2 a p i j hij i1 j1 h1 =>
    rw [partLoop]
    simp only [dif_pos hij, dif_neg h1]
  | case3 a p i j hij =>
    rw [partLoop]
    simp only [dif_neg hij]

theorem partLoop_i_ge (a : Array Obj) (p : ℚ) (i j : ℤ) :
    i ≤ (partLoop a p i j).2.1 := by
  induction a, p, i, j using partLoop.induct with
  | case1 a p i j hij i1 j1 h1 ih =>
    rw [partLoop]
    simp only [dif_pos hij, dif_pos h1]
    have := scanUp_ge a p i
    simp only [i1, j1] at *
    omega
  | case2 a p i j hij i1 j1 h1 =>
    rw [partLoop]
    simp only [dif_pos hij, dif_neg h1]
    exact scanUp_ge a p i
  | case3 a p i j hij =>
    rw [partLoop]
    simp only [dif_neg hij]
    omega

theorem partLoop_j_le (a : Array Obj) (p : ℚ) (i j : ℤ) :
    (partLoop a p i j).2.2 ≤ j := by
  induction a, p, i, j using partLoop.induct with
  | case1 a p i j hij i1 j1 h1 ih =>
    rw [partLoop]
    simp only [dif_pos hij, dif_pos h1]
    have := scanDown_le a p j
    simp only [i1, j1] at *
    omega
  | case2 a p i j hij i1 j1 h1 =>
    rw [partLoop]
    simp only [dif_pos hij, dif_neg h1]
    exact scanDown_le a p j
  | case3 a p i j hij =>
    rw [partLoop]
    simp only [dif_neg hij]
    omega

theorem partLoop_cross (a : Array Obj) (p : ℚ) (i j : ℤ) :
    (partLoop a p i j).2.2 < (partLoop a p i j).2.1 := by
  induction a, p, i, j using partLoop.induct with
  | case1 a p i j hij i1 j1 h1 ih =>
    rw [partLoop]
    simp only [dif_pos hij, dif_pos h1]
    exact ih
  | case2 a p i j hij i1 j1 h1 =>
    rw [partLoop]
    simp only [dif_pos hij, dif_neg h1]
    simp only [i1, j1] at h1
    omega
  | case3 a p i j hij =>
    rw [partLoop]
    simp only [dif_neg hij]
    omega

theorem partLoop_outside (a : Array Obj) (p : ℚ) (i j : ℤ) :
    0 ≤ i → ∀ k : ℤ, 0 ≤ k → (k < i ∨ j < k) →
    objAt (partLoop a p i j).1 k = objAt a k := by
  induction a, p, i, j using partLoop.induct with
  | case1 a p i j hij i1 j1 h1 ih =>
    intro h0 k hk0 hk
    have hi1 := scanUp_ge a p i
    have hj1 := scanDown_le a p j
    simp only [i1, j1] at *
    rw [partLoop]
    simp only [dif_pos hij, dif_pos h1]
    have hnn : 0 ≤ scanUp a p i := by omega
    have hnn' : 0 ≤ scanDown a p j := by omega
    rw [ih (by omega) k hk0 (by omega)]
    exact objAt_swapA_of_ne a _ _ k (by omega) (by omega) hk0
  | case2 a p i j hij i1 j1 h1 =>
    intro h0 k hk0 hk
    rw [partLoop]
    simp only [dif_pos hij, dif_neg h1]
  | case3 a p i j hij =>
    intro h0 k hk0 hk
    rw [partLoop]
    simp only [dif_neg hij]

theorem partLoop_lower (a : Array Obj) (p : ℚ) (i j : ℤ) :
    0 ≤ i → j < (a.size : ℤ) → ∀ k : ℤ, i ≤ k → k < (partLoop a p i j).2.1 →
    p ≤ probAt (partLoop a p i j).1 k := by
  induction a, p, i, j using partLoop.induct with
  | case1 a p i j hij i1 j1 h1 ih =>
    intro h0 hjs k hk1 hk2
    have hge := scanUp_ge a p i
    have hle := scanDown_le a p j
    simp only [i1, j1] at *
    have hI0 : 0 ≤ scanUp a p i := le_trans h0 hge
    have hJ0 : 0 ≤ scanDown a p j := le_trans hI0 h1
    have hJs : scanDown a p j < (a.size : ℤ) := lt_of_le_of_lt hle hjs
    have hIs : scanUp a p i < (a.size : ℤ) := lt_of_le_of_lt h1 hJs
    have hsz : (swapA a (scanUp a p i).toNat (scanDown a p j).toNat).size
        = a.size := size_swapA ..
    rw [partLoop] at hk2 ⊢
    simp only [dif_pos hij, dif_pos h1] at hk2 ⊢
    rcases lt_trichotomy k (scanUp a p i) with hlt | heq | hgt
    · rw [probAt, partLoop_outside _ p _ _ (by omega) k (by omega)
        (Or.inl (by omega))]
      rw [objAt_swapA_of_ne a _ _ k (by omega) (by omega) (by omega)]
      exact le_of_lt (scanUp_passed a p i h0 k hk1 hlt)
    · rw [probAt, partLoop_outside _ p _ _ (by omega) k (by omega)
        (Or.inl (by omega))]
      have hsw := objAt_swapA_left a (scanUp a p i).toNat
        (scanDown a p j).toNat (by omega) (by omega)
      rw [Int.toNat_of_nonneg hI0, Int.toNat_of_nonneg hJ0] at hsw
      rw [heq, hsw]
      exact scanDown_stop a p j hJ0 hJs
    · exact ih (by omega) (by omega) k (by omega) hk2
  | case2 a p i j hij i1 j1 h1 =>
    intro h0 hjs k hk1 hk2
    rw [partLoop] at hk2 ⊢
    simp only [dif_pos hij, dif_neg h1] at hk2 ⊢
    exact le_of_lt (scanUp_passed a p i h0 k hk1 hk2)
  | case3 a p i j hij =>
    intro h0 hjs k hk1 hk2
    rw [partLoop] at hk2
    simp only [dif_neg hij] at hk2
    omega

theorem partLoop_upper (a : Array Obj) (p : ℚ) (i j : ℤ) :
    0 ≤ i → j < (a.size : ℤ) → ∀ k : ℤ, (partLoop a p i j).2.2 < k → k ≤ j →
    probAt (partLoop a p i j).1 k ≤ p := by
  induction a, p, i, j using partLoop.induct with
  | case1 a p i j hij i1 j1 h1 ih =>
    intro h0 hjs k hk1 hk2
    have hge := scanUp_ge a p i
    have hle := scanDown_le a p j
    simp only [i1, j1] at *
    have hI0 : 0 ≤ scanUp a p i := le_trans h0 hge
    have hJ0 : 0 ≤ scanDown a p j := le_trans hI0 h1
    have hJs : scanDown a p j < (a.size : ℤ) := lt_of_le_of_lt hle hjs
    have hIs : scanUp a p i < (a.size : ℤ) := lt_of_le_of_lt h1 hJs
    have hsz : (swapA a (scanUp a p i).toNat (scanDown a p j).toNat).size
        = a.size := size_swapA ..
    rw [partLoop] at hk1 ⊢
    simp only [dif_pos hij, dif_pos h1] at hk1 ⊢
    rcases lt_trichotomy (scanDown a p j) k with hlt | heq | hgt
    · rw [probAt, partLoop_outside _ p _ _ (by omega) k (by omega)
        (Or.inr (by omega))]
      rw [objAt_swapA_of_ne a _ _ k (by omega) (by omega) (by omega)]
      exact le_of_lt (scanDown_passed a p j hjs k hlt hk2)
    · rw [probAt, partLoop_outside _ p _ _ (by omega) k (by omega)
        (Or.inr (by omega))]
      have hsw := objAt_swapA_right a (scanUp a p i).toNat
        (scanDown a p j).toNat (by omega) (by omega)
      rw [Int.toNat_of_nonneg hI0, Int.toNat_of_nonneg hJ0] at hsw
      rw [← heq, hsw]
      exact scanUp_stop a p i hI0 hIs
    · exact ih (by omega) (by omega) k hk1 (by omega)
  | case2 a p i j hij i1 j1 h1 =>
    intro h0 hjs k hk1 hk2
    rw [partLoop] at hk1 ⊢
    simp only [dif_pos hij, dif_neg h1] at hk1 ⊢
    exact le_of_lt (scanDown_passed a p j hjs k hk1 hk2)
  | case3 a p i j hij =>
    intro h0 hjs k hk1 hk2
    rw [partLoop] at hk1
    simp only [dif_neg hij] at hk1
    omega

theorem partLoop_pred (P : Obj → Prop) (a : Array Obj) (p : ℚ) (i j : ℤ) :
    0 ≤ i → j < (a.size : ℤ) → (∀ k : ℤ, i ≤ k → k ≤ j → P (objAt a k)) →
    ∀ k : ℤ, i ≤ k → k ≤ j → P (objAt (partLoop a p i j).1 k) := by
  induction a, p, i, j using partLoop.induct with
  | case1 a p i j hij i1 j1 h1 ih =>
    intro h0 hjs hP k hk1 hk2
    have hge := scanUp_ge a p i
    have hle := scanDown_le a p j
    simp only [i1, j1] at *
    have hI0 : 0 ≤ scanUp a p i := le_trans h0 hge
    have hJ0 : 0 ≤ scanDown a p j := le_trans hI0 h1
    have hJs : scanDown a p j < (a.size : ℤ) := lt_of_le_of_lt hle hjs
    have hIs : scanUp a p i < (a.size : ℤ) := lt_of_le_of_lt h1 hJs
    have hsz : (swapA a (scanUp a p i).toNat (scanDown a p j).toNat).size
        = a.size := size_swapA ..
    have hswL := objAt_swapA_left a (scanUp a p i).toNat
      (scanDown a p j).toNat (by omega) (by omega)
    have hswR := objAt_swapA_right a (scanUp a p i).toNat
      (scanDown a p j).toNat (by omega) (by omega)
    rw [Int.toNat_of_nonneg hI0, Int.toNat_of_nonneg hJ0] at hswL hswR
    have hPs : ∀ k : ℤ, i ≤ k → k ≤ j →
        P (objAt (swapA a (scanUp a p i).toNat (scanDown a p j).toNat) k) := by
      intro k' hk'1 hk'2
      by_cases hkI : k' = scanUp a p i
      · rw [hkI, hswL]; exact hP _ (by omega) (by omega)
      · by_cases hkJ : k' = scanDown a p j
        · rw [hkJ, hswR]; exact hP _ (by omega) (by omega)
        · rw [objAt_swapA_of_ne a _ _ k' (by omega) (by omega) (by omega)]
          exact hP k' hk'1 hk'2
    rw [partLoop]
    simp only [dif_pos hij, dif_pos h1]
    by_cases hmid : scanUp a p i + 1 ≤ k ∧ k ≤ scanDown a p j - 1
    · exact ih (by omega) (by omega)
        (fun k' h1' h2' => hPs k' (by omega) (by omega)) k hmid.1 hmid.2
    · rw [partLoop_outside _ p _ _ (by omega) k (by omega) (by omega)]
      exact hPs k hk1 hk2
  | case2 a p i j hij i1 j1 h1 =>
    intro h0 hjs hP k hk1 hk2
    rw [partLoop]
    simp only [dif_pos hij, dif_neg h1]
    exact hP k hk1 hk2
  | case3 a p i j hij =>
    intro h0 hjs hP k hk1 hk2
    rw [partLoop]
    simp only [dif_neg hij]
    exact hP k hk1 hk2

theorem partLoop_bounds (a : Array Obj) (p : ℚ) (i j : ℤ)
    (h0 : 0 ≤ i) (hjs : j < (a.size : ℤ)) (hij : i ≤ j)
    (hm : ∃ m : ℤ, i ≤ m ∧ m ≤ j ∧ probAt a m = p) :
    i < (partLoop a p i j).2.1 ∧ (partLoop a p i j).2.2 < j := by
  obtain ⟨m, hm1, hm2, hmp⟩ := hm
  have hge := scanUp_ge a p i
  have hle := scanDown_le a p j
  have hIm : scanUp a p i ≤ m := by
    by_contra h
    push_neg at h
    have := scanUp_passed a p i h0 m hm1 h
    rw [hmp] at this
    exact lt_irrefl _ this
  have hJm : m ≤ scanDown a p j := by
    by_contra h
    push_neg at h
    have := scanDown_passed a p j hjs m h hm2
    rw [hmp] at this
    exact lt_irrefl _ this
  have h1 : scanUp a p i ≤ scanDown a p j := le_trans hIm hJm
  rw [partLoop]
  simp only [dif_pos hij, dif_pos h1]
  constructor
  · have := partLoop_i_ge (swapA a (scanUp a p i).toNat (scanDown a p j).toNat)
      p (scanUp a p i + 1) (scanDown a p j - 1)
    omega
  · have := partLoop_j_le (swapA a (scanUp a p i).toNat (scanDown a p j).toNat)
      p (scanUp a p i + 1) (scanDown a p j - 1)
    omega

theorem get_cons_set_perm (l : List Obj) :
    ∀ (k : ℕ) (hk : k < l.length) (v : Obj),
    (l.get ⟨k, hk⟩ :: l.set k v).Perm (v :: l) := by
  induction l with
  | nil => intro k hk v; simp at hk
  | cons a t ih =>
    intro k hk v
    cases k with
    | zero => simpa using List.Perm.swap v a t
    | succ m =>
      simp only [List.get_cons_succ, List.set_cons_succ]
      exact (List.Perm.swap a _ _).trans
        (((ih m (by simpa using hk) v).cons a).trans (List.Perm.swap v a t))

theorem set_set_get_perm (l : List Obj) :
    ∀ (i j : ℕ) (hi : i < l.length) (hj : j < l.length),
    ((l.set i (l.get ⟨j, hj⟩)).set j (l.get ⟨i, hi⟩)).Perm l := by
  induction l with
  | nil => intro i j hi hj; simp at hi
  | cons a t ih =>
    intro i j hi hj
    cases i with
    | zero =>
      cases j with
      | zero => simp
      | succ n =>
        simp only [List.get_cons_succ, List.get_cons_zero, List.set_cons_zero,
          List.set_cons_succ]
        exact get_cons_set_perm t n (by simpa using hj) a
    | succ m =>
      cases j with
      | zero =>
        simp only [List.get_cons_succ, List.get_cons_zero, List.set_cons_zero,
          List.set_cons_succ]
        exact get_cons_set_perm t m (by simpa using hi) a
      | succ n =>
        simp only [List.get_cons_succ, List.set_cons_succ]
        exact (ih m n (by simpa using hi) (by simpa using hj)).cons a

theorem swapA_perm (a : Array Obj) (i j : ℕ) :
    (swapA a i j).toList.Perm a.toList := by
  unfold swapA
  split
  case isTrue h =>
    rw [Array.toList_swap]
    have := set_set_get_perm a.toList i j
      (by simpa using h.1) (by simpa using h.2)
    simpa using this
  case isFalse h => exact List.Perm.refl _

theorem partLoop_perm (a : Array Obj) (p : ℚ) (i j : ℤ) :
    (partLoop a p i j).1.toList.Perm a.toList := by
  induction a, p, i, j using partLoop.induct with
  | case1 a p i j hij i1 j1 h1 ih =>
    rw [partLoop]
    simp only [dif_pos hij, dif_pos h1]
    exact ih.trans (swapA_perm a _ _)
  | case2 a p i j hij i1 j1 h1 =>
    rw [partLoop]
    simp only [dif_pos hij, dif_neg h1]
    exact List.Perm.refl _
  | case3 a p i j hij =>
    rw [partLoop]
    simp only [dif_neg hij]
    exact List.Perm.refl _

/-! ### Quicksort recursion lemmas

Each lemma is by induction on the depth budget; `hfuel`-style hypotheses
are not needed for the structural facts (size, permutation, untouched
positions, pointwise predicates), only for sortedness, where the budget
must dominate the interval length. -/

theorem qsortRec_size (f : ℕ) (a : Array Obj) (l r : ℤ) :
    (qsortRec f a l r).size = a.size := by
  induction f generalizing a l r with
  | zero => rfl
  | succ f ih =>
    simp only [qsortRec]
    split
    case isTrue hb =>
      split <;> split <;> simp only [ih, partLoop_size]
    case isFalse hb => rfl

theorem qsortRec_outside (f : ℕ) (a : Array Obj) (l r : ℤ) :
    ∀ k : ℤ, 0 ≤ k → (k < l ∨ r < k) →
    objAt (qsortRec f a l r) k = objAt a k := by
  induction f generalizing a l r with
  | zero => intro k hk0 hk; rfl
  | succ f ih =>
    intro k hk0 hk
    simp only [qsortRec]
    split
    case isTrue hb =>
      have hig := partLoop_i_ge a (probAt a ((l + r) / 2)) l r
      have hjl := partLoop_j_le a (probAt a ((l + r) / 2)) l r
      split
      case isTrue h2 =>
        rw [ih _ _ _ k hk0 (by omega)]
        split
        case isTrue h1 =>
          rw [ih _ _ _ k hk0 (by omega)]
          exact partLoop_outside a _ l r hb.1 k hk0 hk
        case isFalse h1 =>
          exact partLoop_outside a _ l r hb.1 k hk0 hk
      case isFalse h2 =>
        split
        case isTrue h1 =>
          rw [ih _ _ _ k hk0 (by omega)]
          exact partLoop_outside a _ l r hb.1 k hk0 hk
        case isFalse h1 =>
          exact partLoop_outside a _ l r hb.1 k hk0 hk
    case isFalse hb => rfl

theorem qsortRec_pred (P : Obj → Prop) (f : ℕ) (a : Array Obj) (l r : ℤ) :
    (∀ k : ℤ, l ≤ k → k ≤ r → P (objAt a k)) →
    ∀ k : ℤ, l ≤ k → k ≤ r → P (objAt (qsortRec f a l r) k) := by
  induction f generalizing a l r with
  | zero => intro hP k h1 h2; exact hP k h1 h2
  | succ f ih =>
    intro hP k h1 h2
    simp only [qsortRec]
    split
    case isTrue hb =>
      have hig := partLoop_i_ge a (probAt a ((l + r) / 2)) l r
      have hjl := partLoop_j_le a (probAt a ((l + r) / 2)) l r
      set Q := partLoop a (probAt a ((l + r) / 2)) l r with hQ
      have hP1 : ∀ u : ℤ, l ≤ u → u ≤ r → P (objAt Q.1 u) :=
        partLoop_pred P a _ l r hb.1 hb.2.2 hP
      have hP2 : ∀ u : ℤ, l ≤ u → u ≤ r →
          P (objAt (if l < Q.2.2 then qsortRec f Q.1 l Q.2.2 else Q.1) u) := by
        intro u h1' h2'
        split
        case isTrue h1c =>
          by_cases hin : u ≤ Q.2.2
          · exact ih _ _ _ (fun v hv1 hv2 => hP1 v hv1 (by omega)) u h1' hin
          · rw [qsortRec_outside f _ l _ u (by omega) (by omega)]
            exact hP1 u h1' h2'
        case isFalse h1c => exact hP1 u h1' h2'
      split
      case isTrue h2c =>
        by_cases hin : Q.2.1 ≤ k
        · exact ih _ _ _ (fun v hv1 hv2 => hP2 v (by omega) hv2) k hin h2
        · rw [qsortRec_outside f _ _ r k (by omega) (by omega)]
          exact hP2 k h1 h2
      case isFalse h2c => exact hP2 k h1 h2
    case isFalse hb => exact hP k h1 h2

theorem qsortRec_perm (f : ℕ) (a : Array Obj) (l r : ℤ) :
    (qsortRec f a l r).toList.Perm a.toList := by
  induction f generalizing a l r with
  | zero => exact List.Perm.refl _
  | succ f ih =>
    simp only [qsortRec]
    split
    case isTrue hb =>
      have hp := partLoop_perm a (probAt a ((l + r) / 2)) l r
      split
      case isTrue h2 =>
        refine (ih _ _ _).trans ?_
        split
        case isTrue h1 => exact (ih _ _ _).trans hp
        case isFalse h1 => exact hp
      case isFalse h2 =>
        split
        case isTrue h1 => exact (ih _ _ _).trans hp
        case isFalse h1 => exact hp
    case isFalse hb => exact List.Perm.refl _

theorem qsortRec_sorted (f : ℕ) (a : Array Obj) (l r : ℤ) :
    (r - l).toNat < f → 0 ≤ l → r < (a.size : ℤ) →
    SortedSeg (qsortRec f a l r) l r := by
  induction f generalizing a l r with
  | zero => intro hf _ _; exact absurd hf (Nat.not_lt_zero _)
  | succ f ih =>
    intro hf h0 hrs
    by_cases hb : 0 ≤ l ∧ l ≤ r ∧ r < (a.size : ℤ)
    case neg =>
      simp only [qsortRec, if_neg hb]
      intro k k' hk1 hk2 hk3
      exact absurd hk1 (by omega)
    case pos =>
      simp only [qsortRec, if_pos hb]
      set p := probAt a ((l + r) / 2) with hp
      set Q := partLoop a p l r with hQ
      have hmid1 : l ≤ (l + r) / 2 := by omega
      have hmid2 : (l + r) / 2 ≤ r := by omega
      have hbounds : l < Q.2.1 ∧ Q.2.2 < r := partLoop_bounds a p l r h0 hrs
        hb.2.1 ⟨(l + r) / 2, hmid1, hmid2, hp.symm⟩
      obtain ⟨hlt_i, hlt_j⟩ := hbounds
      have hcross : Q.2.2 < Q.2.1 := partLoop_cross a p l r
      have hige : l ≤ Q.2.1 := partLoop_i_ge a p l r
      have hjle : Q.2.2 ≤ r := partLoop_j_le a p l r
      have hsz1 : Q.1.size = a.size := partLoop_size a p l r
      have hF4 : ∀ k : ℤ, l ≤ k → k < Q.2.1 → p ≤ probAt Q.1 k :=
        partLoop_lower a p l r h0 hrs
      have hF5 : ∀ k : ℤ, Q.2.2 < k → k ≤ r → probAt Q.1 k ≤ p :=
        partLoop_upper a p l r h0 hrs
      set a2 := if l < Q.2.2 then qsortRec f Q.1 l Q.2.2 else Q.1 with ha2
      have hsz2 : a2.size = a.size := by
        rw [ha2]
        split
        · rw [qsortRec_size, hsz1]
        · exact hsz1
      have hG1 : SortedSeg a2 l Q.2.2 := by
        rw [ha2]
        split
        case isTrue h1c => exact ih Q.1 l Q.2.2 (by omega) h0 (by omega)
        case isFalse h1c =>
          intro k k' hk1 hk2 hk3
          have he : k = k' := by omega
          rw [he]
      have hG2 : ∀ k : ℤ, l ≤ k → k < Q.2.1 → p ≤ probAt a2 k := by
        intro k hk1 hk2
        rw [ha2]
        split
        case isTrue h1c =>
          by_cases hin : k ≤ Q.2.2
          · exact qsortRec_pred (fun o => p ≤ o.prob) f Q.1 l Q.2.2
              (fun u hu1 hu2 => hF4 u hu1 (by omega)) k hk1 hin
          · rw [probAt, qsortRec_outside f Q.1 l Q.2.2 k (by omega) (by omega)]
            exact hF4 k hk1 hk2
        case isFalse h1c => exact hF4 k hk1 hk2
      have hG3 : ∀ k : ℤ, l ≤ k → Q.2.2 < k → k ≤ r → probAt a2 k ≤ p := by
        intro k hk0 hk1 hk2
        rw [ha2]
        split
        case isTrue h1c =>
          rw [probAt, qsortRec_outside f Q.1 l Q.2.2 k (by omega) (by omega)]
          exact hF5 k hk1 hk2
        case isFalse h1c => exact hF5 k hk1 hk2
      split
      case isTrue h2c =>
        have hH1 : SortedSeg (qsortRec f a2 Q.2.1 r) Q.2.1 r :=
          ih a2 Q.2.1 r (by omega) (by omega) (by omega)
        have hout : ∀ k : ℤ, 0 ≤ k → k < Q.2.1 →
            objAt (qsortRec f a2 Q.2.1 r) k = objAt a2 k :=
          fun k hk0 hk => qsortRec_outside f a2 Q.2.1 r k hk0 (Or.inl hk)
        have hH2 : ∀ k : ℤ, l ≤ k → k < Q.2.1 →
            p ≤ probAt (qsortRec f a2 Q.2.1 r) k := by
          intro k hk1 hk2
          rw [probAt, hout k (by omega) hk2]
          exact hG2 k hk1 hk2
        have hH3 : ∀ k : ℤ, l ≤ k → Q.2.2 < k → k ≤ r →
            probAt (qsortRec f a2 Q.2.1 r) k ≤ p := by
          intro k hk0 hk1 hk2
          by_cases hin : Q.2.1 ≤ k
          · exact qsortRec_pred (fun o => o.prob ≤ p) f a2 Q.2.1 r
              (fun u hu1 hu2 => hG3 u (by omega) (by omega) hu2) k hin hk2
          · rw [probAt, hout k (by omega) (by omega)]
            exact hG3 k hk0 hk1 hk2
        have hH4 : SortedSeg (qsortRec f a2 Q.2.1 r) l Q.2.2 := by
          intro k k' hk1 hk2 hk3
          rw [probAt, probAt, hout k (by omega) (by omega),
            hout k' (by omega) (by omega)]
          exact hG1 k k' hk1 hk2 hk3
        intro k k' hk1 hk2 hk3
        by_cases hc1 : k' ≤ Q.2.2
        · exact hH4 k k' hk1 hk2 hc1
        · by_cases hc2 : Q.2.1 ≤ k
          · exact hH1 k k' hc2 hk2 hk3
          · exact le_trans (hH3 k' (by omega) (by omega) hk3)
              (hH2 k hk1 (by omega))
      case isFalse h2c =>
        have hH1 : SortedSeg a2 Q.2.1 r := by
          intro k k' hk1 hk2 hk3
          have he : k = k' := by omega
          rw [he]
        intro k k' hk1 hk2 hk3
        by_cases hc1 : k' ≤ Q.2.2
        · exact hG1 k k' hk1 hk2 hc1
        · by_cases hc2 : Q.2.1 ≤ k
          · exact hH1 k k' hc2 hk2 hk3
          · exact le_trans (hG3 k' (by omega) (by omega) hk3)
              (hG2 k hk1 (by omega))

theorem qsortRec_fuel_irrelevant (f : ℕ) :
    ∀ (f' : ℕ) (a : Array Obj) (l r : ℤ), (r - l).toNat < f →
    (r - l).toNat < f' → qsortRec f a l r = qsortRec f' a l r := by
  induction f with
  | zero => intro f' a l r h1; exact absurd h1 (Nat.not_lt_zero _)
  | succ f ih =>
    intro f' a l r h1 h2
    cases f' with
    | zero => exact absurd h2 (Nat.not_lt_zero _)
    | succ f' =>
      simp only [qsortRec]
      by_cases hb : 0 ≤ l ∧ l ≤ r ∧ r < (a.size : ℤ)
      case pos =>
        rw [if_pos hb, if_pos hb]
        set p := probAt a ((l + r) / 2) with hp
        set Q := partLoop a p l r with hQ
        have hmid1 : l ≤ (l + r) / 2 := by omega
        have hmid2 : (l + r) / 2 ≤ r := by omega
        have hbounds : l < Q.2.1 ∧ Q.2.2 < r := partLoop_bounds a p l r hb.1
          hb.2.2 hb.2.1 ⟨(l + r) / 2, hmid1, hmid2, hp.symm⟩
        have ha2 : (if l < Q.2.2 then qsortRec f Q.1 l Q.2.2 else Q.1)
            = (if l < Q.2.2 then qsortRec f' Q.1 l Q.2.2 else Q.1) := by
          split
          case isTrue h1c => exact ih f' Q.1 l Q.2.2 (by omega) (by omega)
          case isFalse h1c => rfl
        rw [ha2]
        split
        case isTrue h2c => exact ih f' _ Q.2.1 r (by omega) (by omega)
        case isFalse h2c => rfl
      case neg => rw [if_neg hb, if_neg hb]

theorem probAt_toList (b : Array Obj) (i : ℕ) (h : i < b.toList.length) :
    (b.toList.get ⟨i, h⟩).prob = probAt b (i : ℤ) := by
  have h' : i < b.size := by simpa using h
  simp only [probAt, objAt, Array.getD, Int.toNat_natCast]
  rw [dif_pos h']
  simp [List.get_eq_getElem, Array.getElem_toList]

/-- C1: the Sorter returns a permutation of its input that is
non-increasing in `prob` on every adjacent pair. -/
theorem C1_sorter_permutation_and_sorted (a : Array Obj) :
    (qsort_descent_inplace a).toList.Perm a.toList ∧
    List.Chain' (fun x y => y.prob ≤ x.prob)
      (qsort_descent_inplace a).toList := by
  unfold qsort_descent_inplace
  split
  case isTrue hne =>
    refine ⟨qsortRec_perm _ _ _ _, ?_⟩
    have hs : SortedSeg (qsortRec a.size a 0 ((a.size : ℤ) - 1)) 0
        ((a.size : ℤ) - 1) :=
      qsortRec_sorted a.size a 0 _ (by omega) (by omega) (by omega)
    have hlen : (qsortRec a.size a 0 ((a.size : ℤ) - 1)).toList.length
        = a.size := by
      simp [qsortRec_size]
    rw [List.chain'_iff_get]
    intro i hi
    rw [probAt_toList, probAt_toList]
    have := hs (i : ℤ) ((i : ℤ) + 1) (by omega) (by omega) (by omega)
    convert this using 2
  case isFalse hne =>
    have hz : a.size = 0 := by omega
    have hnil : a.toList = [] := List.length_eq_zero.mp (by simp [hz])
    rw [hnil]
    exact ⟨List.Perm.refl _, List.chain'_nil⟩

/-! ### NMS lemmas -/

theorem intersection_area_comm (a b : Obj) :
    intersection_area a b = intersection_area b a := by
  simp only [intersection_area, rectInter]
  rw [max_comm a.rect.x, max_comm a.rect.y, min_comm (a.rect.x + a.rect.w),
    min_comm (a.rect.y + a.rect.h)]

theorem iouQ_comm (a b : Obj) : iouQ a b = iouQ b a := by
  simp only [iouQ]
  rw [intersection_area_comm, add_comm (rectArea a.rect)]

theorem areas_getD (objs : Array Obj) (j : ℕ) (hj : j < objs.size) :
    (objs.map fun o => rectArea o.rect).getD j 0
      = rectArea ((objs.getD j default).rect) := by
  simp only [Array.getD, Array.size_map]
  rw [dif_pos hj, dif_pos hj]
  simp [Array.getElem_map]

theorem nmsFold_succ (objs : Array Obj) (areas : Array ℚ) (τ : ℚ)
    (ag : Bool) (n : ℕ) :
    nmsFold objs areas τ ag (n + 1) =
      (if nmsKeep objs areas τ ag n (nmsFold objs areas τ ag n) then
        nmsFold objs areas τ ag n ++ [n]
      else nmsFold objs areas τ ag n) := by
  simp [nmsFold, List.range_succ]

theorem nmsFold_bound (objs : Array Obj) (areas : Array ℚ) (τ : ℚ)
    (ag : Bool) (n : ℕ) : ∀ x ∈ nmsFold objs areas τ ag n, x < n := by
  induction n with
  | zero => intro x hx; simp [nmsFold] at hx
  | succ n ih =>
    intro x hx
    rw [nmsFold_succ] at hx
    split at hx
    · rcases List.mem_append.mp hx with hx | hx
      · exact Nat.lt_succ_of_lt (ih x hx)
      · simp at hx; omega
    · exact Nat.lt_succ_of_lt (ih x hx)

theorem nmsFold_chain (objs : Array Obj) (areas : Array ℚ) (τ : ℚ)
    (ag : Bool) (n : ℕ) : List.Chain' (· < ·) (nmsFold objs areas τ ag n) := by
  induction n with
  | zero => simp [nmsFold]
  | succ n ih =>
    rw [nmsFold_succ]
    split
    · refine List.chain'_append.mpr ⟨ih, List.chain'_singleton _, ?_⟩
      intro x hx y hy
      simp only [List.head?_cons, Option.mem_def, Option.some.injEq] at hy
      subst hy
      exact nmsFold_bound objs areas τ ag n x (List.mem_of_mem_getLast? hx)
    · exact ih

theorem nmsFold_nosuppress (objs : Array Obj) (areas : Array ℚ) (τ : ℚ)
    (ag : Bool) (n : ℕ) :
    ∀ x y, x ∈ nmsFold objs areas τ ag n → y ∈ nmsFold objs areas τ ag n →
    x < y →
    pairSuppresses (objs.getD y default) (objs.getD x default)
      (areas.getD y 0) (areas.getD x 0) τ ag = false := by
  induction n with
  | zero => intro x y hx; simp [nmsFold] at hx
  | succ n ih =>
    intro x y hx hy hxy
    rw [nmsFold_succ] at hx hy
    split at hx
    case isTrue hkeep =>
      split at hy
      case isTrue hkeep2 =>
        rcases List.mem_append.mp hx with hx' | hx' <;>
          rcases List.mem_append.mp hy with hy' | hy'
        · exact ih x y hx' hy' hxy
        · simp only [List.mem_singleton] at hy'
          subst hy'
          have := (List.all_eq_true.mp hkeep) x hx'
          simpa using this
        · simp only [List.mem_singleton] at hx'
          have := nmsFold_bound objs areas τ ag n y hy'
          omega
        · simp only [List.mem_singleton] at hx' hy'
          omega
      case isFalse hkeep2 => exact absurd hkeep hkeep2
    case isFalse hkeep =>
      split at hy
      case isTrue hkeep2 => exact absurd hkeep2 hkeep
      case isFalse hkeep2 => exact ih x y hx hy hxy

theorem pairSuppresses_false_iou (x y : Obj) (ax ay τ : ℚ)
    (hax : ax = rectArea x.rect) (hay : ay = rectArea y.rect)
    (hlab : x.label = y.label)
    (h : pairSuppresses x y ax ay τ false = false) : iouQ x y ≤ τ := by
  unfold pairSuppresses at h
  rw [if_neg (by simp [hlab])] at h
  simp only [decide_eq_false_iff_not, not_lt] at h
  rw [hax, hay] at h
  rw [iouQ]
  exact h

/-- C2: in non-agnostic mode, any two distinct kept detections with the
same label have `IoU ≤ nms_threshold` (IoU computed exactly as the source
computes it, `intersection / (area + area - intersection)`). -/
theorem C2_nms_same_label_iou_le (objs : Array Obj) (τ : ℚ) (i j : ℕ)
    (hi : i ∈ nms_sorted_bboxes objs τ false)
    (hj : j ∈ nms_sorted_bboxes objs τ false) (hne : i ≠ j)
    (hlab : (objs.getD i default).label = (objs.getD j default).label) :
    iouQ (objs.getD i default) (objs.getD j default) ≤ τ := by
  unfold nms_sorted_bboxes at hi hj
  have hibd := nmsFold_bound objs _ τ false objs.size i hi
  have hjbd := nmsFold_bound objs _ τ false objs.size j hj
  rcases Nat.lt_or_ge i j with hij | hij
  · have h := nmsFold_nosuppress objs _ τ false objs.size i j hi hj hij
    rw [iouQ_comm]
    exact pairSuppresses_false_iou _ _ _ _ τ
      (areas_getD objs j hjbd) (areas_getD objs i hibd) hlab.symm h
  · have hij' : j < i := by omega
    have h := nmsFold_nosuppress objs _ τ false objs.size j i hj hi hij'
    exact pairSuppresses_false_iou _ _ _ _ τ
      (areas_getD objs i hibd) (areas_getD objs j hjbd) hlab h

/-- Witness for C2 at a concrete input: two disjoint boxes with the same
label are both kept and their IoU is below the threshold. -/
theorem C2_witness :
    (0 ∈ nms_sorted_bboxes #[⟨⟨0, 0, 10, 10⟩, 0, 9/10⟩,
        ⟨⟨100, 100, 10, 10⟩, 0, 8/10⟩] (45/100) false) ∧
    iouQ ((#[⟨⟨0, 0, 10, 10⟩, 0, 9/10⟩,
        ⟨⟨100, 100, 10, 10⟩, 0, 8/10⟩] : Array Obj).getD 0 default)
      ((#[⟨⟨0, 0, 10, 10⟩, 0, 9/10⟩,
        ⟨⟨100, 100, 10, 10⟩, 0, 8/10⟩] : Array Obj).getD 1 default)
      ≤ 45/100 := by
  refine ⟨?_, C2_nms_same_label_iou_le _ _ 0 1 ?_ ?_ (by omega) ?_⟩ <;>
    norm_num [nms_sorted_bboxes, nmsFold, List.range_succ, nmsKeep,
      pairSuppresses, intersection_area, rectInter, rectArea, Array.getD]

theorem nmsFold_sublist (objs : Array Obj) (areas : Array ℚ) (τ : ℚ)
    (ag : Bool) : ∀ n, n ≤ objs.size →
    ((nmsFold objs areas τ ag n).map fun i => objs.getD i default).Sublist
      (objs.toList.take n) := by
  intro n
  induction n with
  | zero => intro h; simp [nmsFold]
  | succ n ih =>
    intro h
    rw [nmsFold_succ]
    have hlt : n < objs.size := h
    have htake : objs.toList.take (n + 1)
        = objs.toList.take n ++ [objs.getD n default] := by
      rw [List.take_succ]
      congr 1
      rw [List.getElem?_eq_getElem (by simpa using hlt)]
      simp [Array.getD, hlt]
    split
    · rw [List.map_append, htake]
      exact (ih (by omega)).append (by simp)
    · rw [htake]
      exact (ih (by omega)).trans (List.sublist_append_left _ _)

/-- C3: the NMS Filter's picked indices are strictly increasing, the kept
objects form a subsequence of the input, and the output length is bounded
by the input length. -/
theorem C3_nms_subsequence (objs : Array Obj) (τ : ℚ) (ag : Bool) :
    List.Chain' (· < ·) (nms_sorted_bboxes objs τ ag) ∧
    ((nms_sorted_bboxes objs τ ag).map fun i => objs.getD i default).Sublist
      objs.toList ∧
    (nms_sorted_bboxes objs τ ag).length ≤ objs.size := by
  have hchain := nmsFold_chain objs (objs.map fun o => rectArea o.rect) τ ag
    objs.size
  have hsub := nmsFold_sublist objs (objs.map fun o => rectArea o.rect) τ ag
    objs.size le_rfl
  rw [List.take_of_length_le (by simp)] at hsub
  refine ⟨hchain, hsub, ?_⟩
  have hlen := hsub.length_le
  simpa using hlen

theorem nmsFoldTrace_fst (objs : Array Obj) (areas : Array ℚ) (τ : ℚ)
    (ag : Bool) : ∀ n, (nmsFoldTrace objs areas τ ag n).1
      = nmsFold objs areas τ ag n := by
  intro n
  induction n with
  | zero => rfl
  | succ n ih =>
    rw [nmsFold_succ]
    simp only [nmsFoldTrace, List.range_succ, List.foldl_append, List.foldl_cons,
      List.foldl_nil]
    simp only [nmsFoldTrace] at ih
    rw [ih]

/-- C8 (amended): when the `union_area` denominator is zero the division
is still executed, but the comparison keeps the candidate whenever the
threshold is non-negative (the `ℚ` convention `q / 0 = 0` gives the same
comparison outcome as the C++ `NaN > threshold`, which is false). -/
theorem C8_zero_union_not_suppressed (a b : Obj) (areaA areaB τ : ℚ)
    (ag : Bool) (hτ : 0 ≤ τ)
    (hu : areaA + areaB - intersection_area a b = 0) :
    pairSuppresses a b areaA areaB τ ag = false := by
  unfold pairSuppresses
  split
  · rfl
  · dsimp only
    rw [hu, div_zero]
    simp only [gt_iff_lt, decide_eq_false_iff_not, not_lt]
    exact hτ

/-- Witness for the amended C8: a concrete zero-union pair. -/
theorem C8_zero_union_witness :
    ((0 : ℚ) ≤ 45/100 ∧
      (0 : ℚ) + 0 - intersection_area ⟨⟨0, 0, 0, 0⟩, 0, 9/10⟩
        ⟨⟨5, 5, 0, 0⟩, 0, 8/10⟩ = 0) ∧
    pairSuppresses ⟨⟨0, 0, 0, 0⟩, 0, 9/10⟩ ⟨⟨5, 5, 0, 0⟩, 0, 8/10⟩ 0 0
      (45/100) false = false := by
  have h1 : (0 : ℚ) ≤ 45/100 := by norm_num
  have h2 : (0 : ℚ) + 0 - intersection_area ⟨⟨0, 0, 0, 0⟩, 0, 9/10⟩
      ⟨⟨5, 5, 0, 0⟩, 0, 8/10⟩ = 0 := by
    norm_num [intersection_area, rectInter, rectArea]
  exact ⟨⟨h1, h2⟩, C8_zero_union_not_suppressed _ _ _ _ _ _ h1 h2⟩

/-- C8 (counterexample to the guardedness part): on a concrete input a
`union_area` denominator equal to `0` is evaluated at the line-74
comparison, so the division is not guarded against zero. -/
theorem C8_division_by_zero_reached :
    (0 : ℚ) ∈ (nms_sorted_bboxes_trace #[⟨⟨0, 0, 0, 0⟩, 0, 9/10⟩,
      ⟨⟨5, 5, 0, 0⟩, 0, 8/10⟩] (45/100) false).2 := by
  norm_num [nms_sorted_bboxes_trace, nmsFoldTrace, List.range_succ, nmsKeep,
    pairSuppresses, intersection_area, rectInter, rectArea, Array.getD]

/-! ### Decoder lemmas -/

theorem rowDecode_some_spec (conf : ℚ) (nl : ℕ) (img_w img_h : ℚ)
    (row : List ℚ) (o : Obj) (hr : rowDecode conf nl img_w img_h row = some o) :
    o.prob = listMax (clsOf nl row) ∧
    o.label = (clsOf nl row).indexOf (listMax (clsOf nl row)) ∧
    conf < o.prob ∧
    o.rect = ⟨clampf (row.getD 0 0 - (1/2) * row.getD 2 0) 0 img_w,
      clampf (row.getD 1 0 - (1/2) * row.getD 3 0) 0 img_h,
      clampf (row.getD 0 0 + (1/2) * row.getD 2 0) 0 img_w
        - clampf (row.getD 0 0 - (1/2) * row.getD 2 0) 0 img_w,
      clampf (row.getD 1 0 + (1/2) * row.getD 3 0) 0 img_h
        - clampf (row.getD 1 0 - (1/2) * row.getD 3 0) 0 img_h⟩ := by
  rcases hcls : clsOf nl row with _ | ⟨c, cs⟩ <;>
    simp only [rowDecode, hcls] at hr
  · exact absurd hr (by simp)
  · split at hr
    case isTrue hgt =>
      rw [Option.some.injEq] at hr
      subst hr
      exact ⟨rfl, rfl, hgt, rfl⟩
    case isFalse hgt => exact absurd hr (by simp)

theorem rowDecode_isSome_iff (conf : ℚ) (nl : ℕ) (img_w img_h : ℚ)
    (row : List ℚ) (hne : clsOf nl row ≠ []) :
    (rowDecode conf nl img_w img_h row).isSome = true ↔
      conf < listMax (clsOf nl row) := by
  rcases hcls : clsOf nl row with _ | ⟨c, cs⟩
  · exact absurd hcls hne
  · simp only [rowDecode, hcls]
    split
    case isTrue hgt => simpa using hgt
    case isFalse hgt => simpa using hgt

/-- C4: the Decoder emits a candidate for an anchor row iff the maximum
class score strictly exceeds the confidence threshold; the emitted
probability is that maximum, the label is the index of its first
occurrence (`std::max_element`), and every emitted candidate's
probability exceeds the threshold. -/
theorem C4_decoder_emits_iff_above_threshold (rows : List (List ℚ))
    (conf : ℚ) (nl : ℕ) (img_w img_h : ℚ) (row : List ℚ)
    (hne : clsOf nl row ≠ []) :
    ((rowDecode conf nl img_w img_h row).isSome = true ↔
      conf < listMax (clsOf nl row)) ∧
    (∀ o, rowDecode conf nl img_w img_h row = some o →
      o.prob = listMax (clsOf nl row) ∧
      o.label = (clsOf nl row).indexOf (listMax (clsOf nl row))) ∧
    (∀ o ∈ parse_yolov11_detections rows conf nl img_w img_h,
      conf < o.prob) := by
  refine ⟨rowDecode_isSome_iff conf nl img_w img_h row hne, ?_, ?_⟩
  · intro o hr
    obtain ⟨h1, h2, _, _⟩ := rowDecode_some_spec conf nl img_w img_h row o hr
    exact ⟨h1, h2⟩
  · intro o ho
    obtain ⟨r, _, hr⟩ := List.mem_filterMap.mp ho
    exact (rowDecode_some_spec conf nl img_w img_h r o hr).2.2.1

/-- Witness for C4: a concrete two-class anchor row. -/
theorem C4_witness :
    clsOf 2 [0, 0, 10, 10, 1/2, 9/10] ≠ [] ∧
    (((rowDecode (1/4) 2 480 480 [0, 0, 10, 10, 1/2, 9/10]).isSome = true ↔
      (1/4 : ℚ) < listMax (clsOf 2 [0, 0, 10, 10, 1/2, 9/10])) ∧
    (∀ o, rowDecode (1/4) 2 480 480 [0, 0, 10, 10, 1/2, 9/10] = some o →
      o.prob = listMax (clsOf 2 [0, 0, 10, 10, 1/2, 9/10]) ∧
      o.label = (clsOf 2 [0, 0, 10, 10, 1/2, 9/10]).indexOf
        (listMax (clsOf 2 [0, 0, 10, 10, 1/2, 9/10]))) ∧
    (∀ o ∈ parse_yolov11_detections [[0, 0, 10, 10, 1/2, 9/10]] (1/4) 2
        480 480, (1/4 : ℚ) < o.prob)) := by
  have hne : clsOf 2 [0, 0, 10, 10, 1/2, 9/10] ≠ ([] : List ℚ) := by
    simp [clsOf]
  exact ⟨hne, C4_decoder_emits_iff_above_threshold _ _ _ _ _ _ hne⟩

/-- C5: every corner of an emitted candidate's box is clamped into
`[0, padded_width] × [0, padded_height]`, and a computed corner
`x1 = padded_width + 50` leaves the Decoder as exactly `padded_width`. -/
theorem C5_decoder_clamps_corners (conf : ℚ) (nl : ℕ) (img_w img_h : ℚ)
    (row : List ℚ) (o : Obj) (h0w : 0 ≤ img_w) (h0h : 0 ≤ img_h)
    (hr : rowDecode conf nl img_w img_h row = some o) :
    (0 ≤ o.rect.x ∧ o.rect.x ≤ img_w ∧
     0 ≤ o.rect.x + o.rect.w ∧ o.rect.x + o.rect.w ≤ img_w ∧
     0 ≤ o.rect.y ∧ o.rect.y ≤ img_h ∧
     0 ≤ o.rect.y + o.rect.h ∧ o.rect.y + o.rect.h ≤ img_h) ∧
    (row.getD 0 0 + (1/2) * row.getD 2 0 = img_w + 50 →
      o.rect.x + o.rect.w = img_w) := by
  obtain ⟨-, -, -, hrect⟩ := rowDecode_some_spec conf nl img_w img_h row o hr
  rw [hrect]
  dsimp only
  constructor
  · refine ⟨clampf_ge_lo _ _ _, clampf_le_hi _ _ _ h0w, ?_, ?_, clampf_ge_lo _ _ _,
      clampf_le_hi _ _ _ h0h, ?_, ?_⟩
    all_goals rw [add_sub_cancel]
    · exact clampf_ge_lo _ _ _
    · exact clampf_le_hi _ _ _ h0w
    · exact clampf_ge_lo _ _ _
    · exact clampf_le_hi _ _ _ h0h
  · intro hx1
    rw [add_sub_cancel, hx1]
    exact clampf_of_ge _ _ _ h0w (by linarith)

/-- Witness for C5: a concrete anchor row whose computed corner is
`padded_width + 50 = 530`. -/
theorem C5_witness :
    (0 : ℚ) ≤ 480 ∧
    rowDecode (1/4) 1 480 480 [430, 100, 200, 40, 9/10]
      = some ⟨⟨330, 80, 150, 40⟩, 0, 9/10⟩ ∧
    ((⟨⟨330, 80, 150, 40⟩, 0, 9/10⟩ : Obj).rect.x
        + (⟨⟨330, 80, 150, 40⟩, 0, 9/10⟩ : Obj).rect.w ≤ 480 ∧
      (⟨⟨330, 80, 150, 40⟩, 0, 9/10⟩ : Obj).rect.x
        + (⟨⟨330, 80, 150, 40⟩, 0, 9/10⟩ : Obj).rect.w = 480) := by
  have h0 : (0 : ℚ) ≤ 480 := by norm_num
  have hr : rowDecode (1/4) 1 480 480 [430, 100, 200, 40, 9/10]
      = some ⟨⟨330, 80, 150, 40⟩, 0, 9/10⟩ := by
    norm_num [rowDecode, clsOf, listMax, clampf, List.getD]
  have h := C5_decoder_clamps_corners (1/4) 1 480 480
    [430, 100, 200, 40, 9/10] _ h0 h0 hr
  refine ⟨h0, hr, h.1.2.2.2.1, h.2 (by norm_num [List.getD])⟩

/-- C6 (counterexample): an anchor row with negative raw `w` is emitted
with a strictly negative box width (`x1 - x0 = -10 < 0`), because both
corners move through the monotone clamp with their order reversed. -/
theorem C6_counterexample_negative_width :
    rowDecode (1/4) 1 480 480 [100, 100, -10, 20, 9/10]
      = some ⟨⟨105, 90, -10, 20⟩, 0, 9/10⟩ ∧
    ((⟨⟨105, 90, -10, 20⟩, 0, 9/10⟩ : Obj).rect.w < 0) := by
  constructor
  · norm_num [rowDecode, clsOf, listMax, clampf, List.getD]
  · norm_num

/-- C6 (amended): the Decoder emits non-negative width and height for
every anchor row whose raw `w` and `h` are non-negative, and the
Coordinate Mapper preserves non-negative width and height whenever the
scale is positive. -/
theorem C6_nonneg_under_nonneg_raw (conf : ℚ) (nl : ℕ) (img_w img_h : ℚ)
    (row : List ℚ) (o : Obj)
    (hw : 0 ≤ row.getD 2 0) (hh : 0 ≤ row.getD 3 0)
    (hr : rowDecode conf nl img_w img_h row = some o) :
    (0 ≤ o.rect.w ∧ 0 ≤ o.rect.h) ∧
    (∀ (o' : Obj) (padX padY : ℤ) (scale : ℚ) (W H : ℕ), 0 < scale →
      0 ≤ o'.rect.w → 0 ≤ o'.rect.h →
      0 ≤ (mapObj o' padX padY scale W H).rect.w ∧
      0 ≤ (mapObj o' padX padY scale W H).rect.h) := by
  constructor
  · obtain ⟨-, -, -, hrect⟩ := rowDecode_some_spec conf nl img_w img_h row o hr
    rw [hrect]
    dsimp only
    constructor
    · rw [sub_nonneg]
      exact clampf_mono _ _ _ _ (by linarith)
    · rw [sub_nonneg]
      exact clampf_mono _ _ _ _ (by linarith)
  · intro o' padX padY scale W H hs hw' hh'
    simp only [mapObj]
    constructor
    · rw [sub_nonneg]
      exact clampf_mono _ _ _ _ (by
        apply div_le_div_of_nonneg_right ?_ hs.le
        linarith)
    · rw [sub_nonneg]
      exact clampf_mono _ _ _ _ (by
        apply div_le_div_of_nonneg_right ?_ hs.le
        linarith)

/-- Witness for the amended C6 at a concrete row with non-negative raw
extents. -/
theorem C6_witness :
    ((0 : ℚ) ≤ ([100, 100, 10, 20, 9/10] : List ℚ).getD 2 0 ∧
     (0 : ℚ) ≤ ([100, 100, 10, 20, 9/10] : List ℚ).getD 3 0 ∧
     rowDecode (1/4) 1 480 480 [100, 100, 10, 20, 9/10]
       = some ⟨⟨95, 90, 10, 20⟩, 0, 9/10⟩) ∧
    (0 ≤ (⟨⟨95, 90, 10, 20⟩, 0, 9/10⟩ : Obj).rect.w ∧
     0 ≤ (⟨⟨95, 90, 10, 20⟩, 0, 9/10⟩ : Obj).rect.h) := by
  have hw : (0 : ℚ) ≤ ([100, 100, 10, 20, 9/10] : List ℚ).getD 2 0 := by
    norm_num [List.getD]
  have hh : (0 : ℚ) ≤ ([100, 100, 10, 20, 9/10] : List ℚ).getD 3 0 := by
    norm_num [List.getD]
  have hr : rowDecode (1/4) 1 480 480 [100, 100, 10, 20, 9/10]
      = some ⟨⟨95, 90, 10, 20⟩, 0, 9/10⟩ := by
    norm_num [rowDecode, clsOf, listMax, clampf, List.getD]
  exact ⟨⟨hw, hh, hr⟩,
    (C6_nonneg_under_nonneg_raw (1/4) 1 480 480 _ _ hw hh hr).1⟩

/-! ### Preprocessor lemmas -/

/-- C7 (counterexample): for a 640×333 image the code truncates
`333 * 0.75 = 249.75` to `249`, while rounding would give `250`. -/
theorem C7_counterexample_truncation :
    preprocScale 640 333 = 3/4 ∧
    (preprocWH 640 333).2 = 249 ∧
    round ((333 : ℚ) * preprocScale 640 333) = 250 ∧
    (preprocWH 640 333).2 ≠ round ((333 : ℚ) * preprocScale 640 333) := by
  have h1 : preprocScale 640 333 = 3/4 := by
    norm_num [preprocScale]
  have h2 : (preprocWH 640 333).2 = 249 := by
    norm_num [preprocWH, h1]
  have h3 : round ((333 : ℚ) * preprocScale 640 333) = 250 := by
    rw [h1]
    norm_num [round_eq]
  exact ⟨h1, h2, h3, by rw [h2, h3]; decide⟩

/-- C7 (amended): the Preprocessor's scale is `min(T/W, T/H)`, the
resized dimensions are the *truncations* (floors) of `W*scale` and
`H*scale` (not roundings), and the larger side is forced exactly to
`T = 480`. -/
theorem C7_preproc_scale_and_truncated_dims (W H : ℕ) (hW : 0 < W)
    (hH : 0 < H) :
    preprocScale W H = min ((480 : ℚ) / W) ((480 : ℚ) / H) ∧
    (W > H → preprocWH W H = (480, ⌊(H : ℚ) * preprocScale W H⌋)) ∧
    (W ≤ H → preprocWH W H = (⌊(W : ℚ) * preprocScale W H⌋, 480)) := by
  have hW0 : (0 : ℚ) < W := by exact_mod_cast hW
  have hH0 : (0 : ℚ) < H := by exact_mod_cast hH
  refine ⟨?_, ?_, ?_⟩
  · unfold preprocScale
    split
    case isTrue hgt =>
      rw [min_eq_left]
      exact div_le_div_of_nonneg_left (by norm_num) hH0
        (by exact_mod_cast hgt.le)
    case isFalse hgt =>
      rw [min_eq_right]
      exact div_le_div_of_nonneg_left (by norm_num) hW0
        (by exact_mod_cast not_lt.mp hgt)
  · intro hgt
    have hsc : preprocScale W H = 480 / W := by
      unfold preprocScale
      rw [if_pos hgt]
    have hw480 : ⌊(W : ℚ) * preprocScale W H⌋ = 480 := by
      rw [hsc, mul_div_assoc', mul_comm, mul_div_assoc,
        div_self (ne_of_gt hW0), mul_one]
      norm_num
    have hhlt : ⌊(H : ℚ) * preprocScale W H⌋ < 480 := by
      rw [hsc, Int.floor_lt]
      rw [mul_div_assoc']
      rw [div_lt_iff₀ hW0]
      push_cast
      have : (H : ℚ) < W := by exact_mod_cast hgt
      nlinarith
    unfold preprocWH
    rw [if_pos (by rw [hw480]; omega)]
  · intro hle
    have hsc : preprocScale W H = 480 / H := by
      unfold preprocScale
      rw [if_neg (by omega)]
    have hh480 : ⌊(H : ℚ) * preprocScale W H⌋ = 480 := by
      rw [hsc, mul_div_assoc', mul_comm, mul_div_assoc,
        div_self (ne_of_gt hH0), mul_one]
      norm_num
    have hwle : ⌊(W : ℚ) * preprocScale W H⌋ ≤ 480 := by
      rw [hsc]
      have hx : (W : ℚ) * (480 / H) ≤ 480 := by
        rw [mul_div_assoc', div_le_iff₀ hH0]
        have : (W : ℚ) ≤ H := by exact_mod_cast hle
        nlinarith
      calc ⌊(W : ℚ) * (480 / H)⌋ ≤ ⌊(480 : ℚ)⌋ := Int.floor_le_floor hx
        _ = 480 := by norm_num
    unfold preprocWH
    rw [if_neg (by rw [hh480]; omega)]

/-- Witness for the amended C7 at the 640×333 input. -/
theorem C7_witness :
    (0 < 640 ∧ 0 < 333) ∧
    preprocScale 640 333 = min ((480 : ℚ) / 640) ((480 : ℚ) / 333) ∧
    (640 > 333 → preprocWH 640 333
      = (480, ⌊(333 : ℚ) * preprocScale 640 333⌋)) := by
  have h := C7_preproc_scale_and_truncated_dims 640 333 (by decide) (by decide)
  exact ⟨⟨by decide, by decide⟩, h.1, h.2.1⟩

/-! ### Coordinate mapper and detect lemmas -/

theorem mapObj_bounds (o : Obj) (padX padY : ℤ) (scale : ℚ) (W H : ℕ)
    (hW : 1 ≤ W) (hH : 1 ≤ H) :
    0 ≤ (mapObj o padX padY scale W H).rect.x ∧
    (mapObj o padX padY scale W H).rect.x ≤ (W : ℚ) - 1 ∧
    0 ≤ (mapObj o padX padY scale W H).rect.x
      + (mapObj o padX padY scale W H).rect.w ∧
    (mapObj o padX padY scale W H).rect.x
      + (mapObj o padX padY scale W H).rect.w ≤ (W : ℚ) - 1 ∧
    0 ≤ (mapObj o padX padY scale W H).rect.y ∧
    (mapObj o padX padY scale W H).rect.y ≤ (H : ℚ) - 1 ∧
    0 ≤ (mapObj o padX padY scale W H).rect.y
      + (mapObj o padX padY scale W H).rect.h ∧
    (mapObj o padX padY scale W H).rect.y
      + (mapObj o padX padY scale W H).rect.h ≤ (H : ℚ) - 1 := by
  have hW1 : (0 : ℚ) ≤ (W : ℚ) - 1 := by
    have : (1 : ℚ) ≤ (W : ℚ) := by exact_mod_cast hW
    linarith
  have hH1 : (0 : ℚ) ≤ (H : ℚ) - 1 := by
    have : (1 : ℚ) ≤ (H : ℚ) := by exact_mod_cast hH
    linarith
  simp only [mapObj]
  refine ⟨clampf_ge_lo _ _ _, clampf_le_hi _ _ _ hW1, ?_, ?_,
    clampf_ge_lo _ _ _, clampf_le_hi _ _ _ hH1, ?_, ?_⟩
  all_goals rw [add_sub_cancel]
  · exact clampf_ge_lo _ _ _
  · exact clampf_le_hi _ _ _ hW1
  · exact clampf_ge_lo _ _ _
  · exact clampf_le_hi _ _ _ hH1

/-- C9: `detect` rewrites every kept box by `orig = (p - pad) / scale`
with the very scale and pads computed by its own preprocessing step
(`preprocScale`, `padTotalW/2`, `padTotalH/2`), clamps into
`[0, W-1] × [0, H-1]`, and therefore every output box lies entirely
inside `[0, W-1] × [0, H-1]`. -/
theorem C9_mapper_formula_and_bounds (W H nl : ℕ) (rows : List (List ℚ))
    (conf τ : ℚ) (hW : 1 ≤ W) (hH : 1 ≤ H) :
    ((detectPost W H nl rows conf τ).1 =
      (nms_sorted_bboxes
          (qsort_descent_inplace (parse_yolov11_detections rows conf nl
            ((((preprocWH W H).1 + padTotalW W H : ℤ)) : ℚ)
            ((((preprocWH W H).2 + padTotalH W H : ℤ)) : ℚ)).toArray)
          τ false).map
        (fun i => mapObj
          ((qsort_descent_inplace (parse_yolov11_detections rows conf nl
            ((((preprocWH W H).1 + padTotalW W H : ℤ)) : ℚ)
            ((((preprocWH W H).2 + padTotalH W H : ℤ)) : ℚ)).toArray).getD
              i default)
          (padTotalW W H / 2) (padTotalH W H / 2) (preprocScale W H) W H)) ∧
    ∀ o ∈ (detectPost W H nl rows conf τ).1,
      0 ≤ o.rect.x ∧ o.rect.x ≤ (W : ℚ) - 1 ∧
      0 ≤ o.rect.x + o.rect.w ∧ o.rect.x + o.rect.w ≤ (W : ℚ) - 1 ∧
      0 ≤ o.rect.y ∧ o.rect.y ≤ (H : ℚ) - 1 ∧
      0 ≤ o.rect.y + o.rect.h ∧ o.rect.y + o.rect.h ≤ (H : ℚ) - 1 := by
  refine ⟨rfl, ?_⟩
  intro o ho
  simp only [detectPost, List.mem_map] at ho
  obtain ⟨i, -, rfl⟩ := ho
  exact mapObj_bounds _ _ _ _ W H hW hH

/-- Witness for C9 at concrete image dimensions. -/
theorem C9_witness :
    ((1 : ℕ) ≤ 640 ∧ (1 : ℕ) ≤ 480) ∧
    ∀ o ∈ (detectPost 640 480 1 [] (1/4) (45/100)).1,
      0 ≤ o.rect.x ∧ o.rect.x ≤ (640 : ℚ) - 1 ∧
      0 ≤ o.rect.x + o.rect.w ∧ o.rect.x + o.rect.w ≤ (640 : ℚ) - 1 ∧
      0 ≤ o.rect.y ∧ o.rect.y ≤ (480 : ℚ) - 1 ∧
      0 ≤ o.rect.y + o.rect.h ∧ o.rect.y + o.rect.h ≤ (480 : ℚ) - 1 := by
  refine ⟨⟨by decide, by decide⟩, ?_⟩
  have h := C9_mapper_formula_and_bounds 640 480 1 [] (1/4) (45/100)
    (by decide) (by decide)
  intro o ho
  have hc : ((640 : ℕ) : ℚ) = (640 : ℚ) := by norm_num
  have hc2 : ((480 : ℕ) : ℚ) = (480 : ℚ) := by norm_num
  have := h.2 o ho
  rw [hc, hc2] at this
  exact this

/-- C10: `detect` unconditionally returns `0`; the integer return value
never distinguishes any outcome. -/
theorem C10_detect_returns_zero (W H nl : ℕ) (rows : List (List ℚ))
    (conf τ : ℚ) : (detectPost W H nl rows conf τ).2 = 0 := rfl
